import Mathlib

/-!
Verification of the Miller-Rabin prime tester.

The repository has two arithmetic variants:
* a word-native variant (`src/unnamed/part_000`) working on `unsigned long long`
  (64-bit) values, using shift-and-add modular multiplication (`mulmod`),
  square-and-multiply exponentiation (`powmod`), a Miller-Rabin witness test,
  a small-prime sieve, a multi-round probable-prime driver and a 30-bit prime
  search loop;
* a fixed-width 1024-bit variant (`src/大数版本素数生成器（未完成）.cpp`) with the
  same structure over 32-bit limb arrays.

Machine integers are embedded as `Nat` with explicit reduction modulo `2 ^ 64`
(resp. `2 ^ 1024`) at every operation where the C code can overflow or
truncate.  Every C loop is embedded as a fuel-indexed structural recursion;
the fuel is the exact iteration bound imposed by the fixed bit width (a 64-bit
value is halved to zero in at most 64 steps, etc.), so on all inputs of the C
type the fuelled function runs the same iterations as the C loop.
-/

set_option maxRecDepth 20000
set_option exponentiation.threshold 2048

/-- Bound of the 64-bit machine word used by the word-native variant. -/
def M64 : Nat := 2 ^ 64

/-- Loop body of `mulmod` from `src/unnamed/part_000` lines 44-57.
State: partial sum `res`, shifted addend `a`, remaining multiplier `b`,
modulus `mod`.  Each C statement is mirrored: `res += a` and `a <<= 1` wrap at
`2 ^ 64`, each followed by a single conditional subtraction of `mod`; on loop
exit the code returns `res % mod`. -/
def mulmodAux : Nat → Nat → Nat → Nat → Nat → Nat
  | 0, res, _, _, m => res % m
  | f + 1, res, a, b, m =>
    if b = 0 then res % m
    else
      let res' := if b % 2 = 1 then
          (let r := (res + a) % M64; if m ≤ r then r - m else r)
        else res
      let a' := let t := (a * 2) % M64; if m ≤ t then t - m else t
      mulmodAux f res' a' (b / 2) m

/-- Overflow-avoiding modular multiplication `mulmod(a, b, mod)` of
`src/unnamed/part_000`: first `a %= mod`, then the shift-and-add loop.
The multiplier `b` is a 64-bit value, so 64 halvings exhaust it. -/
def mulmod (a b m : Nat) : Nat := mulmodAux 64 0 (a % m) b m

/-- Loop body of `powmod` from `src/unnamed/part_000` lines 60-69:
square-and-multiply with accumulator `res`, current base `base`, remaining
exponent `e`. -/
def powmodAux : Nat → Nat → Nat → Nat → Nat → Nat
  | 0, res, _, _, _ => res
  | f + 1, res, base, e, m =>
    if e = 0 then res
    else
      powmodAux f (if e % 2 = 1 then mulmod res base m else res)
        (mulmod base base m) (e / 2) m

/-- Modular exponentiation `powmod(base, exp, mod)` of `src/unnamed/part_000`:
`res = 1`, `base %= mod`, then the square-and-multiply loop (64-bit exponent,
hence fuel 64). -/
def powmod (base e m : Nat) : Nat := powmodAux 64 1 (base % m) e m

/-- Decomposition loop shared by both witness tests: repeatedly halve `d`
while it is even, counting the halvings in `s`.  Mirrors
`while ((d & 1) == 0) { d >>= 1; s++; }`. -/
def decomposeAux : Nat → Nat → Nat → Nat × Nat
  | 0, d, s => (d, s)
  | f + 1, d, s => if d % 2 = 0 then decomposeAux f (d / 2) (s + 1) else (d, s)

/-- Squaring loop of `miller_rabin_witness` (`for (r = 1; r < s; ++r)`):
repeatedly replace `x` by `mulmod(x, x, n)`; return 1 on reaching `n - 1`,
0 when the iterations are exhausted. -/
def mrLoop (n : Nat) : Nat → Nat → Nat
  | _, 0 => 0
  | x, k + 1 =>
    let x' := mulmod x x n
    if x' = n - 1 then 1 else mrLoop n x' k

/-- Miller-Rabin witness test `miller_rabin_witness(n, a)` of
`src/unnamed/part_000` lines 72-87: degenerate-base check `a % n == 0`,
decomposition `n - 1 = d * 2 ^ s`, `x = powmod(a, d, n)`, the immediate
`x == 1 || x == n - 1` pass, then `s - 1` squaring rounds. -/
def millerRabinWitness (n a : Nat) : Nat :=
  if a % n = 0 then 1
  else
    let ds := decomposeAux 64 (n - 1) 0
    let x := powmod a ds.1 n
    if x = 1 ∨ x = n - 1 then 1
    else mrLoop n x (ds.2 - 1)

/-- The fixed table `small_primes` (all primes below 200). -/
def smallPrimes : List Nat :=
  [2, 3, 5, 7, 11, 13, 17, 19, 23, 29,
   31, 37, 41, 43, 47, 53, 59, 61, 67, 71,
   73, 79, 83, 89, 97, 101, 103, 107, 109, 113,
   127, 131, 137, 139, 149, 151, 157, 163, 167, 173,
   179, 181, 191, 193, 197, 199]

/-- Sieve scan shared by the drivers: walk the table in order; an exact match
(`p == n`) yields `some true`, a proper divisor yields `some false`, falling
off the table yields `none`.  Mirrors the loop
`if (p == n) return 1; if (n % p == 0) return 0;`. -/
def sieveCheck : List Nat → Nat → Option Bool
  | [], _ => none
  | p :: ps, n =>
    if p = n then some true
    else if n % p = 0 then some false
    else sieveCheck ps n

/-- Reduction of a raw 64-bit random value into `[0, max)`:
`rand_ull(max)` returns 0 when `max == 0` and `r % max` otherwise. -/
def randUll (max raw : Nat) : Nat := if max = 0 then 0 else raw % max

/-- Candidate generator `gen_random_odd(bits)` of `src/unnamed/part_000`
lines 127-135, as a function of the raw 64-bit random value `raw` drawn by
`rand_ull`: `high = 1 << (bits-1)`, `range = (1 << bits) - high` (both with
64-bit wrap; the C shift is undefined for counts ≥ 64 and is modelled as a
wrapping shift), `r = rand_ull(range) + high`, `r |= 1`. -/
def genRandomOdd (bits raw : Nat) : Nat :=
  if bits < 2 then 3
  else
    let high := (1 <<< (bits - 1)) % M64
    let range := ((1 <<< bits) % M64 + M64 - high) % M64
    let r := (randUll range raw + high) % M64
    r ||| 1

/-- Modelled from the spec: the process-global PRNG (libc `rand`/`srand`,
outside the repository's sources) is a deterministic state machine.  The state
is a `Nat`; `rand()` returns `f state` (for an arbitrary output table `f`) and
advances the state by 1; `srand(x)` sets the state to `x`.  The spec only
requires a non-cryptographic deterministic generator mutated by every draw. -/
def rand32M (f : Nat → Nat) (s : Nat) : Nat × Nat :=
  ((((f s % 65536) <<< 16) ||| (f (s + 1) % 65536)) % 2 ^ 32, s + 2)

/-- The raw 64-bit value built by `rand_ull`:
`r = ((ull)rand32() << 32) | (ull)rand32()`, threading the PRNG state. -/
def randUllRaw (f : Nat → Nat) (s : Nat) : Nat × Nat :=
  let r1 := rand32M f s
  let r2 := rand32M f r1.2
  ((r1.1 <<< 32) ||| r2.1, r2.2)

/-- Witness-drawing loop of `is_probable_prime(n, k)`
(`src/unnamed/part_000` lines 119-123): each round draws
`a = 2 + rand_ull(n - 3)` and returns 0 at the first failing witness,
leaving the remaining rounds unexecuted (visible here in the returned PRNG
state). -/
def mrRoundsM (f : Nat → Nat) (n : Nat) : Nat → Nat → Nat × Nat
  | 0, s => (1, s)
  | k + 1, s =>
    let rw := randUllRaw f s
    let a := 2 + randUll (n - 3) rw.1
    if millerRabinWitness n a = 0 then (0, rw.2)
    else mrRoundsM f n k rw.2

/-- Multi-round driver `is_probable_prime(n, k)` of `src/unnamed/part_000`
lines 112-124: reject `n < 2`, consult the sieve (exact match accepts,
divisibility rejects), else run `k` random-witness rounds.  Returns the
verdict together with the final PRNG state. -/
def isProbablePrimeM (f : Nat → Nat) (n k s : Nat) : Nat × Nat :=
  if n < 2 then (0, s)
  else
    match sieveCheck smallPrimes n with
    | some true => (1, s)
    | some false => (0, s)
    | none => mrRoundsM f n k s

/-- Driver verdict alone (first component of `isProbablePrimeM`). -/
def isProbablePrime (f : Nat → Nat) (n k s : Nat) : Nat :=
  (isProbablePrimeM f n k s).1

/-- Search loop of `generate_30bit_prime` (`src/unnamed/part_000` lines
164-201), with the wall clock as an oracle `times` (successive `time(NULL)`
readings) and an explicit iteration fuel.  Per attempt: draw a candidate,
run the inline sieve (divisible => retry, skipping the clock check, exactly
as the C `continue` does), else run `is_probable_prime(candidate, 10)`;
accept on success; otherwise reseed the PRNG (`srand(time(NULL) + attempts)`)
when more than 60 seconds have elapsed.  Returns the accepted prime and the
attempt count. -/
def gen30Aux (f times : Nat → Nat) (start : Nat) :
    Nat → Nat → Nat → Nat → Option (Nat × Nat)
  | 0, _, _, _ => none
  | fuel + 1, att, s, ti =>
    let rw := randUllRaw f s
    let cand := genRandomOdd 30 rw.1
    if sieveCheck smallPrimes cand = some false then
      gen30Aux f times start fuel (att + 1) rw.2 ti
    else
      let pr := isProbablePrimeM f cand 10 rw.2
      if pr.1 = 1 then some (cand, att + 1)
      else if start + 60 < times ti then
        gen30Aux f times start fuel (att + 1) (times (ti + 1) + (att + 1)) (ti + 2)
      else
        gen30Aux f times start fuel (att + 1) pr.2 (ti + 1)

/-- Full 30-bit prime search: `start = time(NULL)`, PRNG state starts at the
seed installed by `srand`, time index 1 (reading 0 is the start stamp). -/
def generate30 (f times : Nat → Nat) (seed fuel : Nat) : Option (Nat × Nat) :=
  gen30Aux f times (times 0) fuel 0 seed 1

/-- Concrete PRNG output table: the raw draws place candidate
`211 * 2544457 = 536880427` (a sieve-surviving composite that fails the base-2
witness) first, then the prime `536870923` when no reseed intervenes, and the
prime `536870951` after a reseed to state 101. -/
def fTable : Nat → Nat := fun s =>
  if s = 3 then 9515 else if s = 11 then 11 else if s = 104 then 39 else 0

/-- Clock oracle that never advances: the 60-second reseed threshold is never
crossed. -/
def timesSame : Nat → Nat := fun _ => 0

/-- Clock oracle that jumps past the 60-second threshold right after the
first failed attempt, triggering `srand(time(NULL) + attempts)`. -/
def timesLate : Nat → Nat := fun i => if i = 0 then 0 else 100

/-- Reference modular exponentiation (exact arithmetic, no fixed width),
used as the independent reference computation the spec's testable properties
compare against. -/
def refPowMod : Nat → Nat → Nat → Nat → Nat
  | 0, _, _, n => 1 % n
  | f + 1, g, e, n =>
    if e = 0 then 1 % n
    else
      let r := refPowMod f ((g * g) % n) (e / 2) n
      if e % 2 = 1 then (g % n) * r % n else r

/-- Bound of the fixed 1024-bit width (32 limbs of 32 bits) of `bigint1024`. -/
def B1024 : Nat := 2 ^ 1024

/-- Fixed-width subtraction `bigint_sub(c, a, b)`: limb-wise subtraction with
borrow, i.e. `a - b` modulo `2 ^ 1024` (callers guarantee `a ≥ b`). -/
def bigSub (a b : Nat) : Nat := (a + B1024 - b % B1024) % B1024

/-- Repeated-subtraction reduction loop (`while (compare(temp, n) >= 0)
bigint_sub(temp, temp, n)`) used by `miller_rabin_witness_1024` and
`bigint_rand_range`; fuelled, one unit per subtraction. -/
def subReduce : Nat → Nat → Nat → Nat
  | 0, t, _ => t
  | f + 1, t, n => if n ≤ t then subReduce f (t - n) n else t

/-- Alignment loop of `bigint_mod_mul` (lines 189-192 of the 1024-bit
variant): left-shift a copy of `n` (wrapping at the fixed width, as
`bigint_shl_one` does) until it is no smaller than the remainder, counting the
shifts.  `none` models non-termination of the C loop: once the shifted modulus
has wrapped to 0 it can never reach `rem` again, so 1025 iterations decide the
loop. -/
def alignUp : Nat → Nat → Nat → Option (Nat × Nat)
  | 0, _, _ => none
  | f + 1, ns, rem =>
    if ns < rem then (alignUp f (ns * 2 % B1024) rem).map fun p => (p.1, p.2 + 1)
    else some (ns, 0)

/-- Walk-down loop of `bigint_mod_mul` (lines 195-201): `shift + 1`
iterations; in each, subtract the shifted modulus when it fits, then shift it
right once. -/
def reduceDown : Nat → Nat → Nat → Nat
  | 0, rem, _ => rem
  | k + 1, rem, ns =>
    reduceDown k (if ns ≤ rem then rem - ns else rem) (ns / 2)

/-- Modular multiplication `bigint_mod_mul(c, a, b, n)` of the 1024-bit
variant: `bigint_mul` keeps only the lower 1024 bits of the product (the
truncation at line 168-171), then align-shift-subtract reduction.  `none`
models the non-terminating alignment loop. -/
def bigintModMul (a b n : Nat) : Option Nat :=
  let rem := a * b % B1024
  (alignUp 1025 n rem).map fun p => reduceDown (p.2 + 1) rem p.1

/-- Loop body of `bigint_mod_exp`: accumulator `res`, current base `b`,
remaining exponent `e`; a 1024-bit exponent is exhausted by 1024 halvings. -/
def bigModExpAux : Nat → Nat → Nat → Nat → Nat → Option Nat
  | 0, res, _, e, _ => if e = 0 then some res else none
  | f + 1, res, b, e, n =>
    if e = 0 then some res
    else do
      let res' ← if e % 2 = 1 then bigintModMul res b n else some res
      let b' ← bigintModMul b b n
      bigModExpAux f res' b' (e / 2) n

/-- Modular exponentiation `bigint_mod_exp(c, base, exp, mod)` of the
1024-bit variant: `result = 1`, then square-and-multiply over copies of the
operands. -/
def bigintModExp (base e n : Nat) : Option Nat :=
  bigModExpAux 1024 1 base e n

/-- Squaring loop of `miller_rabin_witness_1024` (lines 270-276). -/
def mrLoop1024 (n nm1 : Nat) : Nat → Nat → Option Nat
  | _, 0 => some 0
  | x, k + 1 => do
    let x' ← bigintModMul x x n
    if x' = nm1 then some 1 else mrLoop1024 n nm1 x' k

/-- Core of `miller_rabin_witness_1024` after the base has been reduced:
decompose `n - 1 = d * 2 ^ s` (1025 units of fuel cover a 1024-bit value),
compute `x = a ^ d mod n`, then the immediate check and the squaring loop. -/
def mrTest1024 (n a : Nat) : Option Nat := do
  let nm1 := bigSub n 1
  let ds := decomposeAux 1025 nm1 0
  let x ← bigintModExp a ds.1 n
  if x = 1 ∨ x = nm1 then some 1
  else mrLoop1024 n nm1 x (ds.2 - 1)

/-- Miller-Rabin witness test `miller_rabin_witness_1024(n, a)` of the
1024-bit variant (lines 236-279), returning the verdict together with the
final contents of the caller's cell `*a`: when `a ≥ n` the code reduces `a`
by repeated subtraction and, unless the reduction hits 0 (immediate pass),
writes the reduced value back through the `const` input pointer
(`bigint_copy((bigint1024*)a, &temp)` at line 245). -/
def millerRabinWitness1024 (n a : Nat) : Option (Nat × Nat) :=
  if n ≤ a then
    let t := subReduce a a n
    if t = 0 then some (1, a)
    else (mrTest1024 n t).map fun res => (res, t)
  else (mrTest1024 n a).map fun res => (res, a)

example : mulmod 7 9 11 = 8 := by decide
example : powmod 3 20 1000 = 3 ^ 20 % 1000 := by decide
example : millerRabinWitness 13 5 = 1 := by decide
example : millerRabinWitness 15 2 = 0 := by decide
example : sieveCheck smallPrimes 199 = some true := by decide
example : genRandomOdd 30 9515 = 536880427 := by decide
example : bigintModMul 7 9 11 = some 8 := by decide
example : millerRabinWitness1024 5 7 = some (1, 2) := by decide
example : millerRabinWitness1024 13 6 = some (1, 6) := by decide

/-! ### Correctness and bounds for the word-native modular layer -/

theorem condSub_eq_mod (m x : Nat) (h : x < 2 * m) :
    (if m ≤ x then x - m else x) = x % m := by
  rcases le_or_lt m x with hle | hlt
  · rw [if_pos hle, Nat.mod_eq_sub_mod hle, Nat.mod_eq_of_lt (by omega)]
  · rw [if_neg (by omega), Nat.mod_eq_of_lt hlt]

theorem mulmodAux_lt : ∀ f res a b m, 0 < m → mulmodAux f res a b m < m
  | 0, _, _, _, m, hm => Nat.mod_lt _ hm
  | f + 1, res, a, b, m, hm => by
    simp only [mulmodAux]
    split
    · exact Nat.mod_lt _ hm
    · exact mulmodAux_lt f _ _ _ m hm

/-- The word-native modular multiplication always returns a canonical
residue, for every nonzero modulus of the 64-bit type (even those above
`2 ^ 63` for which the computed value is not the true product residue). -/
theorem mulmod_lt (a b m : Nat) (hm : 0 < m) : mulmod a b m < m :=
  mulmodAux_lt 64 0 (a % m) b m hm

theorem mulmodAux_correct : ∀ f res a b m, 0 < m → m ≤ 2 ^ 63 → res < m → a < m →
    b < 2 ^ f → mulmodAux f res a b m = (res + a * b) % m
  | 0, res, a, b, m, _, _, hres, _, hb => by
    have hb0 : b = 0 := by omega
    subst hb0
    simp [mulmodAux, Nat.mod_eq_of_lt hres]
  | f + 1, res, a, b, m, hm, h63, hres, ha, hb => by
    have hM : 2 * m ≤ M64 := by
      have : (2:Nat) ^ 63 * 2 = 2 ^ 64 := by norm_num
      simp only [M64]; omega
    rcases Nat.eq_zero_or_pos b with rfl | hbpos
    · simp [mulmodAux, Nat.mod_eq_of_lt hres]
    · have hra : (res + a) % M64 = res + a := Nat.mod_eq_of_lt (by omega)
      have ht : a * 2 % M64 = a * 2 := Nat.mod_eq_of_lt (by omega)
      have hcr : (if m ≤ res + a then res + a - m else res + a) = (res + a) % m :=
        condSub_eq_mod m (res + a) (by omega)
      have hca : (if m ≤ a * 2 then a * 2 - m else a * 2) = a * 2 % m :=
        condSub_eq_mod m (a * 2) (by omega)
      have hstep : mulmodAux (f + 1) res a b m =
          mulmodAux f ((res + a * (b % 2)) % m) (a * 2 % m) (b / 2) m := by
        simp only [mulmodAux, if_neg (by omega : ¬ b = 0)]
        rcases Nat.mod_two_eq_zero_or_one b with h2 | h2 <;>
          simp [h2, hra, ht, hcr, hca, Nat.mod_eq_of_lt hres]
      rw [hstep, mulmodAux_correct f _ _ _ m hm h63 (Nat.mod_lt _ hm)
        (Nat.mod_lt _ hm) (by omega)]
      have hsplit : res + a * (b % 2) + a * 2 * (b / 2) = res + a * b := by
        have hb2 := Nat.mod_add_div b 2
        calc res + a * (b % 2) + a * 2 * (b / 2)
            = res + a * (b % 2 + 2 * (b / 2)) := by ring
          _ = res + a * b := by rw [hb2]
      have hfin : (res + a * (b % 2)) % m + a * 2 % m * (b / 2) ≡
          res + a * b [MOD m] := by
        calc (res + a * (b % 2)) % m + a * 2 % m * (b / 2)
            ≡ res + a * (b % 2) + a * 2 * (b / 2) [MOD m] :=
              (Nat.mod_modEq _ m).add ((Nat.mod_modEq _ m).mul_right _)
          _ = res + a * b := hsplit
      exact hfin

/-- For every modulus up to `2 ^ 63` (so that neither `res += a` nor
`a <<= 1` can exceed the 64-bit word) and every 64-bit multiplier,
`mulmod` computes the exact product residue. -/
theorem mulmod_correct (a b m : Nat) (hm : 0 < m) (h63 : m ≤ 2 ^ 63)
    (hb : b < 2 ^ 64) : mulmod a b m = a * b % m := by
  rw [mulmod, mulmodAux_correct 64 0 (a % m) b m hm h63 hm
    (Nat.mod_lt _ hm) hb, Nat.zero_add, Nat.mod_mul_mod]

theorem powmodAux_lt : ∀ f res base e m, res < m → powmodAux f res base e m < m
  | 0, _, _, _, _, hres => hres
  | f + 1, res, base, e, m, hres => by
    simp only [powmodAux]
    split
    · exact hres
    · refine powmodAux_lt f _ _ _ m ?_
      split
      · exact mulmod_lt _ _ _ (by omega)
      · exact hres

/-- The word-native modular exponentiation always returns a value below the
modulus whenever the modulus is at least 2. -/
theorem powmod_lt (a e m : Nat) (hm : 2 ≤ m) : powmod a e m < m :=
  powmodAux_lt 64 1 (a % m) e m (by omega)

theorem powmodAux_correct : ∀ f res base e m, 0 < m → m ≤ 2 ^ 63 → res < m →
    base < m → e < 2 ^ f → powmodAux f res base e m = res * base ^ e % m
  | 0, res, base, e, m, _, _, hres, _, he => by
    have he0 : e = 0 := by omega
    subst he0
    simp [powmodAux, Nat.mod_eq_of_lt hres]
  | f + 1, res, base, e, m, hm, h63, hres, hbase, he => by
    rcases Nat.eq_zero_or_pos e with rfl | hepos
    · simp [powmodAux, Nat.mod_eq_of_lt hres]
    · have hb64 : base < 2 ^ 64 := by
        have : (2:Nat) ^ 63 ≤ 2 ^ 64 := by norm_num
        omega
      simp only [powmodAux, if_neg (by omega : ¬ e = 0)]
      have hreslt : (if e % 2 = 1 then mulmod res base m else res) < m := by
        split
        · exact mulmod_lt _ _ _ hm
        · exact hres
      rw [powmodAux_correct f _ _ _ m hm h63 hreslt (mulmod_lt _ _ _ hm) (by omega)]
      have hsq : mulmod base base m = base * base % m :=
        mulmod_correct _ _ _ hm h63 hb64
      have hres' : (if e % 2 = 1 then mulmod res base m else res) ≡
          res * base ^ (e % 2) [MOD m] := by
        rcases Nat.mod_two_eq_zero_or_one e with h2 | h2
        · rw [if_neg (by omega), h2, pow_zero, mul_one]
        · rw [if_pos h2, h2, pow_one, mulmod_correct _ _ _ hm h63 hb64]
          exact Nat.mod_modEq _ m
      have hbase' : mulmod base base m ≡ base * base [MOD m] := by
        rw [hsq]; exact Nat.mod_modEq _ m
      have hsplit : res * base ^ (e % 2) * (base * base) ^ (e / 2) =
          res * base ^ e := by
        rw [← pow_two, ← pow_mul, mul_assoc, ← pow_add]
        congr 2
        have := Nat.mod_add_div e 2
        omega
      have hfin : (if e % 2 = 1 then mulmod res base m else res) *
          (mulmod base base m) ^ (e / 2) ≡ res * base ^ e [MOD m] := by
        calc (if e % 2 = 1 then mulmod res base m else res) *
            (mulmod base base m) ^ (e / 2)
            ≡ res * base ^ (e % 2) * (base * base) ^ (e / 2) [MOD m] :=
              hres'.mul (hbase'.pow _)
          _ = res * base ^ e := hsplit
      exact hfin

/-- For every modulus in `[2, 2 ^ 63]` and every 64-bit exponent, `powmod`
computes the exact power residue. -/
theorem powmod_correct (a e m : Nat) (hm : 2 ≤ m) (h63 : m ≤ 2 ^ 63)
    (he : e < 2 ^ 64) : powmod a e m = a ^ e % m := by
  rw [powmod, powmodAux_correct 64 1 (a % m) e m (by omega) h63 (by omega)
    (Nat.mod_lt _ (by omega)) he, Nat.one_mul, ← Nat.pow_mod]

/-! ### The decomposition loop and the Miller-Rabin pass structure -/

theorem decomposeAux_spec : ∀ f d s, 0 < d → d < 2 ^ f →
    (decomposeAux f d s).1 % 2 = 1 ∧
    (decomposeAux f d s).1 * 2 ^ ((decomposeAux f d s).2 - s) = d ∧
    s ≤ (decomposeAux f d s).2
  | 0, d, s, hd, hlt => by simp at hlt; omega
  | f + 1, d, s, hd, hlt => by
    by_cases h2 : d % 2 = 0
    · have hdiv : d / 2 < 2 ^ f := by
        rw [Nat.div_lt_iff_lt_mul (by norm_num : 0 < 2), ← pow_succ]
        exact hlt
      have hrec := decomposeAux_spec f (d / 2) (s + 1) (by omega) hdiv
      simp only [decomposeAux, if_pos h2]
      refine ⟨hrec.1, ?_, by omega⟩
      have hs1 : s + 1 ≤ (decomposeAux f (d / 2) (s + 1)).2 := hrec.2.2
      have heq := hrec.2.1
      have hexp : (decomposeAux f (d / 2) (s + 1)).2 - s =
          ((decomposeAux f (d / 2) (s + 1)).2 - (s + 1)) + 1 := by omega
      rw [hexp, pow_succ, ← mul_assoc, heq]
      omega
    · simp only [decomposeAux, if_neg h2]
      exact ⟨by omega, by simp, le_refl s⟩

theorem zmod_pow_eq_one_iff (p a k : Nat) (hp : 2 ≤ p) :
    (a : ZMod p) ^ k = 1 ↔ a ^ k % p = 1 := by
  constructor
  · intro h
    have hc : ((a ^ k : Nat) : ZMod p) = ((1 : Nat) : ZMod p) := by
      push_cast
      simpa using h
    have h2 : a ^ k % p = 1 % p := (ZMod.natCast_eq_natCast_iff _ _ _).mp hc
    rwa [Nat.mod_eq_of_lt (show 1 < p by omega)] at h2
  · intro h
    have hc : ((a ^ k : Nat) : ZMod p) = ((1 : Nat) : ZMod p) := by
      rw [ZMod.natCast_eq_natCast_iff]
      show a ^ k % p = 1 % p
      rw [h, Nat.mod_eq_of_lt (by omega)]
    push_cast at hc
    simpa using hc

theorem zmod_negone_cast (p : Nat) (hp : 2 ≤ p) :
    ((p - 1 : Nat) : ZMod p) = -1 := by
  have h1 : p - 1 + 1 = p := by omega
  have h0 : ((p - 1 : Nat) : ZMod p) + 1 = 0 := by
    rw [show (1 : ZMod p) = ((1 : Nat) : ZMod p) by norm_cast, ← Nat.cast_add,
      h1, ZMod.natCast_self]
  exact eq_neg_of_add_eq_zero_left h0

theorem zmod_pow_eq_negone_iff (p a k : Nat) (hp : 2 ≤ p) :
    (a : ZMod p) ^ k = -1 ↔ a ^ k % p = p - 1 := by
  constructor
  · intro h
    have hc : ((a ^ k : Nat) : ZMod p) = ((p - 1 : Nat) : ZMod p) := by
      rw [zmod_negone_cast p hp]
      push_cast
      simpa using h
    have h2 : a ^ k % p = (p - 1) % p := (ZMod.natCast_eq_natCast_iff _ _ _).mp hc
    rwa [Nat.mod_eq_of_lt (show p - 1 < p by omega)] at h2
  · intro h
    have hc : ((a ^ k : Nat) : ZMod p) = ((p - 1 : Nat) : ZMod p) := by
      rw [ZMod.natCast_eq_natCast_iff]
      show a ^ k % p = (p - 1) % p
      rw [h, Nat.mod_eq_of_lt (by omega)]
    rw [zmod_negone_cast p hp] at hc
    push_cast at hc
    simpa using hc

/-- Structure of power residues of a non-multiple base modulo an odd prime:
with `p - 1 = d * 2 ^ s`, either `a ^ d ≡ 1`, or some repeated squaring
`a ^ (d * 2 ^ r)` with `r < s` hits `p - 1`.  This is the number-theoretic
heart of the Miller-Rabin pass guarantee. -/
theorem prime_witness_structure (p a d s : Nat) (hp : p.Prime) (hp2 : 2 < p)
    (hnd : ¬ p ∣ a) (hds : d * 2 ^ s = p - 1) :
    a ^ d % p = 1 ∨ ∃ r, r < s ∧ a ^ (d * 2 ^ r) % p = p - 1 := by
  haveI : Fact p.Prime := ⟨hp⟩
  have hb0 : (a : ZMod p) ≠ 0 := by
    rw [Ne, ZMod.natCast_zmod_eq_zero_iff_dvd]
    exact hnd
  have hfer : (a : ZMod p) ^ (p - 1) = 1 := ZMod.pow_card_sub_one_eq_one hb0
  have hPs : (a : ZMod p) ^ (d * 2 ^ s) = 1 := by rw [hds]; exact hfer
  have hex : ∃ j, (a : ZMod p) ^ (d * 2 ^ j) = 1 := ⟨s, hPs⟩
  have hj0 : (a : ZMod p) ^ (d * 2 ^ Nat.find hex) = 1 := Nat.find_spec hex
  have hj0le : Nat.find hex ≤ s := Nat.find_min' hex hPs
  rcases Nat.eq_zero_or_pos (Nat.find hex) with h0 | hpos
  · left
    rw [← zmod_pow_eq_one_iff p a d (by omega)]
    rw [h0, pow_zero, mul_one] at hj0
    exact hj0
  · right
    refine ⟨Nat.find hex - 1, by omega, ?_⟩
    have hrsucc : (Nat.find hex - 1) + 1 = Nat.find hex := by omega
    have hsq : ((a : ZMod p) ^ (d * 2 ^ (Nat.find hex - 1))) *
        ((a : ZMod p) ^ (d * 2 ^ (Nat.find hex - 1))) = 1 := by
      rw [← pow_add]
      have harit : d * 2 ^ (Nat.find hex - 1) + d * 2 ^ (Nat.find hex - 1) =
          d * 2 ^ ((Nat.find hex - 1) + 1) := by ring
      rw [harit, hrsucc]
      exact hj0
    have hne1 : (a : ZMod p) ^ (d * 2 ^ (Nat.find hex - 1)) ≠ 1 :=
      Nat.find_min hex (by omega)
    rcases mul_self_eq_one_iff.mp hsq with h1 | hneg
    · exact absurd h1 hne1
    · exact (zmod_pow_eq_negone_iff p a _ (by omega)).mp hneg

/-- If some square in the chain hits `n - 1` strictly within the next `k`
squarings, the code's squaring loop detects it and passes. -/
theorem mrLoop_reaches (n a d : Nat) (hn : 2 ≤ n) (h63 : n ≤ 2 ^ 63) :
    ∀ k m x, x = a ^ (d * 2 ^ m) % n →
      (∃ j, m < j ∧ j ≤ m + k ∧ a ^ (d * 2 ^ j) % n = n - 1) →
      mrLoop n x k = 1
  | 0, m, x, _, hj => by
    obtain ⟨j, hj1, hj2, _⟩ := hj
    omega
  | k + 1, m, x, hx, hj => by
    obtain ⟨j, hj1, hj2, hjv⟩ := hj
    have h64 : (2:Nat) ^ 63 ≤ 2 ^ 64 := by norm_num
    have hxlt : x < n := by rw [hx]; exact Nat.mod_lt _ (by omega)
    have hx' : mulmod x x n = a ^ (d * 2 ^ (m + 1)) % n := by
      rw [mulmod_correct x x n (by omega) h63 (by omega), hx, ← Nat.mul_mod,
        ← pow_add]
      congr 2
      ring
    simp only [mrLoop]
    by_cases hEnd : mulmod x x n = n - 1
    · rw [if_pos hEnd]
    · rw [if_neg hEnd]
      refine mrLoop_reaches n a d hn h63 k (m + 1) _ hx' ⟨j, ?_, by omega, hjv⟩
      rcases Nat.lt_or_ge (m + 1) j with h | h
      · exact h
      · exfalso
        have hjm : j = m + 1 := by omega
        rw [hjm] at hjv
        exact hEnd (by rw [hx', hjv])

/-- Any witness in the legal range passes the word-native Miller-Rabin test
on a prime modulus up to `2 ^ 63` (where the modular layer is exact). -/
theorem witness_passes_of_prime (n a : Nat) (hp : n.Prime) (h3 : 3 ≤ n)
    (h63 : n ≤ 2 ^ 63) (hodd : n % 2 = 1) (ha2 : 2 ≤ a) (han : a ≤ n - 2) :
    millerRabinWitness n a = 1 := by
  have h64 : (2:Nat) ^ 63 ≤ 2 ^ 64 := by norm_num
  have haltn : a < n := by omega
  have hamod : a % n = a := Nat.mod_eq_of_lt haltn
  have hnd : ¬ n ∣ a := by
    intro hdvd
    have := Nat.eq_zero_of_dvd_of_lt hdvd haltn
    omega
  obtain ⟨hdodd, hdeq, -⟩ :=
    decomposeAux_spec 64 (n - 1) 0 (by omega) (by omega)
  rw [Nat.sub_zero] at hdeq
  simp only [millerRabinWitness, hamod]
  rw [if_neg (by omega : ¬ a = 0)]
  generalize hDS : decomposeAux 64 (n - 1) 0 = ds at hdodd hdeq ⊢
  obtain ⟨d, s⟩ := ds
  simp only at hdodd hdeq ⊢
  have hs1 : 1 ≤ s := by
    rcases Nat.eq_zero_or_pos s with h0 | h
    · rw [h0, pow_zero, mul_one] at hdeq
      omega
    · exact h
  have hdlt : d < 2 ^ 64 := by
    have h2s : 1 ≤ 2 ^ s := Nat.one_le_two_pow
    have : d ≤ d * 2 ^ s := Nat.le_mul_of_pos_right d (by omega)
    omega
  have hx : powmod a d n = a ^ d % n := powmod_correct a d n (by omega) h63 hdlt
  rcases prime_witness_structure n a d s hp (by omega) hnd hdeq with hcase | ⟨r, hrs, hrv⟩
  · rw [hx, hcase]
    simp
  · rcases Nat.eq_zero_or_pos r with hr0 | hrpos
    · rw [hr0, pow_zero, mul_one] at hrv
      rw [hx, hrv]
      simp
    · by_cases hx1 : a ^ d % n = 1 ∨ a ^ d % n = n - 1
      · rw [hx, if_pos hx1]
      · rw [hx, if_neg hx1]
        refine mrLoop_reaches n a d (by omega) h63 (s - 1) 0 _
          (by rw [pow_zero, mul_one]) ⟨r, by omega, by omega, hrv⟩

/-! ### Reference exponentiation and a large prime certificate -/

theorem refPowMod_correct : ∀ f g e n, 0 < n → e < 2 ^ f →
    refPowMod f g e n = g ^ e % n
  | 0, g, e, n, _, he => by
    have he0 : e = 0 := by omega
    subst he0
    simp [refPowMod]
  | f + 1, g, e, n, hn, he => by
    rcases Nat.eq_zero_or_pos e with rfl | hepos
    · simp [refPowMod]
    · have hdiv : e / 2 < 2 ^ f := by
        rw [Nat.div_lt_iff_lt_mul (by norm_num : 0 < 2), ← pow_succ]
        exact he
      simp only [refPowMod, if_neg (by omega : ¬ e = 0)]
      rw [refPowMod_correct f _ _ n hn hdiv, ← Nat.pow_mod]
      have hsplit : (g * g) ^ (e / 2) = g ^ (2 * (e / 2)) := by
        rw [two_mul, pow_add, ← pow_two, ← pow_mul, two_mul]
        ring
      rcases Nat.mod_two_eq_zero_or_one e with h2 | h2
      · rw [if_neg (by omega), hsplit,
          show 2 * (e / 2) = e by omega]
      · rw [if_pos h2, hsplit, ← Nat.mul_mod, ← pow_succ',
          show 2 * (e / 2) + 1 = e by omega]

theorem goldilocks_aux (q : Nat)
    (hval : refPowMod 64 7 ((18446744069414584321 - 1) / q)
        18446744069414584321 ≠ 1) :
    ((7 : Nat) : ZMod 18446744069414584321) ^
        ((18446744069414584321 - 1) / q) ≠ 1 := by
  intro hcontra
  rw [zmod_pow_eq_one_iff _ 7 _ (by norm_num)] at hcontra
  have hb : (18446744069414584321 - 1) / q < 2 ^ 64 :=
    lt_of_le_of_lt (Nat.div_le_self _ _) (by norm_num)
  have hc := refPowMod_correct 64 7 ((18446744069414584321 - 1) / q)
    18446744069414584321 (by norm_num) hb
  rw [hcontra] at hc
  exact hval hc

/-- The prime `2 ^ 64 - 2 ^ 32 + 1` (above `2 ^ 63`), certified by the Lucas
primality criterion with primitive root 7, using the factorization
`p - 1 = 2 ^ 32 * 3 * 5 * 17 * 257 * 65537`. -/
theorem goldilocks_prime : Nat.Prime 18446744069414584321 := by
  have hP : (18446744069414584321 : Nat) - 1 =
      2 ^ 32 * 3 * 5 * 17 * 257 * 65537 := by norm_num
  refine lucas_primality 18446744069414584321
    ((7 : Nat) : ZMod 18446744069414584321) ?_ ?_
  · have hb : (18446744069414584321 : Nat) - 1 < 2 ^ 64 := by norm_num
    have hc := refPowMod_correct 64 7 (18446744069414584321 - 1)
      18446744069414584321 (by norm_num) hb
    have hval : refPowMod 64 7 (18446744069414584321 - 1)
        18446744069414584321 = 1 := by decide
    exact (zmod_pow_eq_one_iff _ 7 _ (by norm_num)).mpr (by rw [← hc, hval])
  · intro q hq hqdvd
    rw [hP] at hqdvd
    have hq6 : q = 2 ∨ q = 3 ∨ q = 5 ∨ q = 17 ∨ q = 257 ∨ q = 65537 := by
      rcases (Nat.Prime.dvd_mul hq).mp hqdvd with h | h
      · rcases (Nat.Prime.dvd_mul hq).mp h with h | h
        · rcases (Nat.Prime.dvd_mul hq).mp h with h | h
          · rcases (Nat.Prime.dvd_mul hq).mp h with h | h
            · rcases (Nat.Prime.dvd_mul hq).mp h with h | h
              · left
                exact (Nat.prime_dvd_prime_iff_eq hq (by norm_num)).mp
                  (Nat.Prime.dvd_of_dvd_pow hq h)
              · right; left
                exact (Nat.prime_dvd_prime_iff_eq hq (by norm_num)).mp h
            · right; right; left
              exact (Nat.prime_dvd_prime_iff_eq hq (by norm_num)).mp h
          · right; right; right; left
            exact (Nat.prime_dvd_prime_iff_eq hq (by norm_num)).mp h
        · right; right; right; right; left
          exact (Nat.prime_dvd_prime_iff_eq hq (by norm_num)).mp h
      · right; right; right; right; right
        exact (Nat.prime_dvd_prime_iff_eq hq (by norm_num)).mp h
    rcases hq6 with rfl | rfl | rfl | rfl | rfl | rfl
    · exact goldilocks_aux 2 (by decide)
    · exact goldilocks_aux 3 (by decide)
    · exact goldilocks_aux 5 (by decide)
    · exact goldilocks_aux 17 (by decide)
    · exact goldilocks_aux 257 (by decide)
    · exact goldilocks_aux 65537 (by decide)

/-! ### Candidate generator and driver structure -/

theorem lor_one_eq (x : Nat) : x ||| 1 = 2 * (x / 2) + 1 := by
  apply Nat.eq_of_testBit_eq
  intro i
  cases i with
  | zero =>
    rw [Nat.testBit_lor]
    simp only [Nat.testBit_zero]
    have h1 : (2 * (x / 2) + 1) % 2 = 1 := by omega
    rw [h1]
    simp
  | succ i =>
    have h1 : Nat.testBit 1 (i + 1) = false := by
      rw [Nat.testBit_succ]
      norm_num
    rw [Nat.testBit_lor, h1, Bool.or_false, Nat.testBit_succ, Nat.testBit_succ]
    have h2 : (2 * (x / 2) + 1) / 2 = x / 2 := by omega
    rw [h2]

/-- Shape of any value produced by the candidate generator for a bit length
on which the C program is defined (`2 ≤ bits ≤ 63`; at `bits = 64` the code
already evaluates the undefined `1ULL << 64`): the value is odd, its top bit
at position `bits - 1` is set, and it fits in `bits` bits; for every state of
the random source. -/
theorem genRandomOdd_spec (bits raw : Nat) (h2 : 2 ≤ bits) (h63 : bits ≤ 63) :
    genRandomOdd bits raw % 2 = 1 ∧
    2 ^ (bits - 1) ≤ genRandomOdd bits raw ∧
    genRandomOdd bits raw < 2 ^ bits := by
  have hpow : (2:Nat) ^ bits = 2 * 2 ^ (bits - 1) := by
    conv_lhs => rw [show bits = (bits - 1) + 1 by omega]
    rw [pow_succ]
    ring
  have hlt64 : (2:Nat) ^ bits < 2 ^ 64 :=
    Nat.pow_lt_pow_right (by norm_num) (by omega)
  have hp0 : 0 < (2:Nat) ^ (bits - 1) := Nat.pos_pow_of_pos _ (by norm_num)
  have hhigh : (1 <<< (bits - 1)) % M64 = 2 ^ (bits - 1) := by
    rw [Nat.shiftLeft_eq, one_mul, M64]
    exact Nat.mod_eq_of_lt (by omega)
  have hrange : ((1 <<< bits) % M64 + M64 - 2 ^ (bits - 1)) % M64 =
      2 ^ (bits - 1) := by
    rw [Nat.shiftLeft_eq, one_mul]
    show ((2:Nat) ^ bits % 2 ^ 64 + 2 ^ 64 - 2 ^ (bits - 1)) % 2 ^ 64 =
      2 ^ (bits - 1)
    rw [Nat.mod_eq_of_lt hlt64,
      show (2:Nat) ^ bits + 2 ^ 64 - 2 ^ (bits - 1) = 2 ^ 64 + 2 ^ (bits - 1)
        by omega, Nat.add_mod_left]
    exact Nat.mod_eq_of_lt (by omega)
  have hnz : (2:Nat) ^ (bits - 1) ≠ 0 := by omega
  have hmlt : raw % 2 ^ (bits - 1) < 2 ^ (bits - 1) := Nat.mod_lt _ hp0
  have hval : randUll (2 ^ (bits - 1)) raw = raw % 2 ^ (bits - 1) := by
    simp [randUll, hnz]
  have hr0 : (randUll (2 ^ (bits - 1)) raw + 2 ^ (bits - 1)) % M64 =
      raw % 2 ^ (bits - 1) + 2 ^ (bits - 1) := by
    rw [hval]
    show (raw % 2 ^ (bits - 1) + 2 ^ (bits - 1)) % 2 ^ 64 = _
    exact Nat.mod_eq_of_lt (by omega)
  simp only [genRandomOdd, if_neg (by omega : ¬ bits < 2), hhigh, hrange, hr0,
    lor_one_eq]
  omega

theorem subReduce_mod : ∀ f t n, 0 < n → t ≤ f → subReduce f t n = t % n
  | 0, t, n, hn, hf => by
    have ht : t = 0 := by omega
    subst ht
    simp [subReduce]
  | f + 1, t, n, hn, hf => by
    simp only [subReduce]
    by_cases h : n ≤ t
    · have hmod : t % n = (t - n) % n := by
        conv_lhs => rw [show t = (t - n) + n by omega]
        rw [Nat.add_mod_right]
      rw [if_pos h, subReduce_mod f (t - n) n hn (by omega), hmod]
    · rw [if_neg h, Nat.mod_eq_of_lt (by omega)]

theorem mrLoop_cases (n : Nat) : ∀ k x, mrLoop n x k = 0 ∨ mrLoop n x k = 1
  | 0, _ => Or.inl rfl
  | k + 1, x => by
    simp only [mrLoop]
    split
    · exact Or.inr rfl
    · exact mrLoop_cases n k _

theorem millerRabinWitness_cases (n a : Nat) :
    millerRabinWitness n a = 0 ∨ millerRabinWitness n a = 1 := by
  simp only [millerRabinWitness]
  split
  · exact Or.inr rfl
  · split
    · exact Or.inr rfl
    · exact mrLoop_cases n _ _

theorem randUllRaw_state (f : Nat → Nat) (s : Nat) :
    (randUllRaw f s).2 = s + 4 := rfl

/-- The witness drawn in round `i` (counting from 0) when the PRNG is in
state `s` at the start of the round loop. -/
def roundWitness (f : Nat → Nat) (n s : Nat) (i : Nat) : Nat :=
  2 + randUll (n - 3) (randUllRaw f (s + 4 * i)).1

theorem mrRoundsM_all_pass (f : Nat → Nat) (n : Nat) :
    ∀ k s, (mrRoundsM f n k s).1 = 1 ↔
      ∀ i < k, millerRabinWitness n (roundWitness f n s i) = 1
  | 0, s => by
    simp [mrRoundsM]
  | k + 1, s => by
    have hshift : ∀ i, roundWitness f n (s + 4) i = roundWitness f n s (i + 1) := by
      intro i
      have harith : s + 4 + 4 * i = s + 4 * (i + 1) := by ring
      simp only [roundWitness, harith]
    have h0 : roundWitness f n s 0 = 2 + randUll (n - 3) (randUllRaw f s).1 := by
      simp [roundWitness]
    simp only [mrRoundsM]
    by_cases hw : millerRabinWitness n (2 + randUll (n - 3) (randUllRaw f s).1) = 0
    · rw [if_pos hw]
      constructor
      · intro h
        simp at h
      · intro hall
        have := hall 0 (by omega)
        rw [h0, hw] at this
        omega
    · rw [if_neg hw, randUllRaw_state]
      have hw1 : millerRabinWitness n (2 + randUll (n - 3) (randUllRaw f s).1) = 1 := by
        rcases millerRabinWitness_cases n (2 + randUll (n - 3) (randUllRaw f s).1) with h | h
        · exact absurd h hw
        · exact h
      rw [mrRoundsM_all_pass f n k (s + 4)]
      constructor
      · intro hall i hik
        rcases Nat.eq_zero_or_pos i with rfl | hip
        · rw [h0]
          exact hw1
        · have := hall (i - 1) (by omega)
          rw [hshift, show i - 1 + 1 = i by omega] at this
          exact this
      · intro hall i hik
        rw [hshift]
        exact hall (i + 1) (by omega)

theorem mrRoundsM_short_circuit (f : Nat → Nat) (n : Nat) :
    ∀ j k s, j < k →
      (∀ i < j, millerRabinWitness n (roundWitness f n s i) = 1) →
      millerRabinWitness n (roundWitness f n s j) = 0 →
      mrRoundsM f n k s = (0, s + 4 * (j + 1))
  | 0, k, s, hjk, _, hfail => by
    obtain ⟨k', rfl⟩ : ∃ k', k = k' + 1 := ⟨k - 1, by omega⟩
    have h0 : roundWitness f n s 0 = 2 + randUll (n - 3) (randUllRaw f s).1 := by
      simp [roundWitness]
    rw [h0] at hfail
    simp only [mrRoundsM, if_pos hfail, randUllRaw_state]
  | j + 1, k, s, hjk, hall, hfail => by
    obtain ⟨k', rfl⟩ : ∃ k', k = k' + 1 := ⟨k - 1, by omega⟩
    have hshift : ∀ i, roundWitness f n (s + 4) i = roundWitness f n s (i + 1) := by
      intro i
      have harith : s + 4 + 4 * i = s + 4 * (i + 1) := by ring
      simp only [roundWitness, harith]
    have h0 : roundWitness f n s 0 = 2 + randUll (n - 3) (randUllRaw f s).1 := by
      simp [roundWitness]
    have hw1 : millerRabinWitness n (2 + randUll (n - 3) (randUllRaw f s).1) = 1 := by
      rw [← h0]
      exact hall 0 (by omega)
    simp only [mrRoundsM, hw1, if_neg (by omega : ¬ (1:Nat) = 0), randUllRaw_state]
    have hrec := mrRoundsM_short_circuit f n j k' (s + 4) (by omega)
      (fun i hij => by rw [hshift]; exact hall (i + 1) (by omega))
      (by rw [hshift]; exact hfail)
    rw [hrec]
    have : s + 4 + 4 * (j + 1) = s + 4 * (j + 1 + 1) := by ring
    rw [this]

/-! ### Bounds for the 1024-bit modular layer -/

theorem B1024_pos : 0 < B1024 := Nat.pos_pow_of_pos _ (by norm_num)

theorem alignUp_spec : ∀ f ns rem p, ns < B1024 → alignUp f ns rem = some p →
    rem ≤ p.1 ∧ p.1 = ns * 2 ^ p.2 % B1024 ∧ p.1 < B1024 ∧ p.2 < f
  | 0, ns, rem, p, _, h => by simp [alignUp] at h
  | f + 1, ns, rem, p, hlt, h => by
    simp only [alignUp] at h
    by_cases hc : ns < rem
    · rw [if_pos hc] at h
      cases hrec : alignUp f (ns * 2 % B1024) rem with
      | none => rw [hrec] at h; simp at h
      | some q =>
        rw [hrec] at h
        simp only [Option.map_some', Option.some.injEq] at h
        obtain ⟨hq1, hq2, hq3, hq4⟩ :=
          alignUp_spec f (ns * 2 % B1024) rem q (Nat.mod_lt _ B1024_pos) hrec
        subst h
        refine ⟨hq1, ?_, hq3, by omega⟩
        rw [hq2, Nat.mod_mul_mod]
        congr 1
        rw [pow_succ]
        ring
    · rw [if_neg hc] at h
      simp only [Option.some.injEq] at h
      subst h
      exact ⟨by omega, by simp [Nat.mod_eq_of_lt hlt], hlt, by omega⟩

theorem reduceDown_zero : ∀ k m, reduceDown k 0 m = 0
  | 0, _ => rfl
  | k + 1, m => by
    simp only [reduceDown]
    have h : (if m ≤ 0 then 0 - m else 0) = 0 := by
      split <;> omega
    rw [h]
    exact reduceDown_zero k (m / 2)

theorem reduceDown_lt : ∀ k rem m, 0 < m → 2 ^ k ∣ m → rem < 2 * m →
    reduceDown (k + 1) rem m < m / 2 ^ k
  | 0, rem, m, hm, _, hrem => by
    simp only [reduceDown, pow_zero, Nat.div_one]
    split <;> omega
  | k + 1, rem, m, hm, hdvd, hrem => by
    have h2 : (2:Nat) ∣ m := dvd_trans ⟨2 ^ k, by ring⟩ hdvd
    have hm2 : 2 * (m / 2) = m := Nat.mul_div_cancel' h2
    have hrem' : (if m ≤ rem then rem - m else rem) < m := by split <;> omega
    have hdvd' : 2 ^ k ∣ m / 2 := by
      obtain ⟨c, rfl⟩ := hdvd
      rw [pow_succ, show 2 ^ k * 2 * c = 2 * (2 ^ k * c) by ring,
        Nat.mul_div_cancel_left _ (by norm_num : 0 < 2)]
      exact Dvd.intro c rfl
    have hmp : 0 < m / 2 := by omega
    have hrec := reduceDown_lt k (if m ≤ rem then rem - m else rem) (m / 2)
      hmp hdvd' (by omega)
    have hdd : m / 2 / 2 ^ k = m / 2 ^ (k + 1) := by
      rw [Nat.div_div_eq_div_mul, pow_succ, Nat.mul_comm]
    conv_lhs => rw [reduceDown]
    rw [← hdd]
    exact hrec

/-- Whenever the 1024-bit align-shift-subtract reduction terminates, its
result is a canonical residue: strictly below the (positive) modulus. -/
theorem bigintModMul_lt (a b n r : Nat) (hn : 0 < n) (hnB : n < B1024)
    (h : bigintModMul a b n = some r) : r < n := by
  simp only [bigintModMul] at h
  cases halign : alignUp 1025 n (a * b % B1024) with
  | none => rw [halign] at h; simp at h
  | some p =>
    rw [halign] at h
    simp only [Option.map_some', Option.some.injEq] at h
    obtain ⟨hle, hval, hplt, hK⟩ := alignUp_spec 1025 n (a * b % B1024) p hnB halign
    rcases Nat.eq_zero_or_pos p.1 with hz | hpos
    · have hrem0 : a * b % B1024 = 0 := by omega
      rw [hrem0, reduceDown_zero] at h
      omega
    · have hKle : p.2 ≤ 1024 := by omega
      have hsplitpow : B1024 = 2 ^ (1024 - p.2) * 2 ^ p.2 := by
        show (2:Nat) ^ 1024 = 2 ^ (1024 - p.2) * 2 ^ p.2
        rw [← pow_add]
        congr 1
        omega
      have hns : p.1 = n % 2 ^ (1024 - p.2) * 2 ^ p.2 := by
        rw [hval, hsplitpow, Nat.mul_mod_mul_right]
      have hdvd : 2 ^ p.2 ∣ p.1 := by
        rw [hns]
        exact dvd_mul_left _ _
      have hquot : p.1 / 2 ^ p.2 = n % 2 ^ (1024 - p.2) := by
        rw [hns, Nat.mul_div_cancel _ (Nat.pos_pow_of_pos _ (by norm_num))]
      have hrlt : reduceDown (p.2 + 1) (a * b % B1024) p.1 < p.1 / 2 ^ p.2 :=
        reduceDown_lt p.2 (a * b % B1024) p.1 hpos hdvd (by omega)
      rw [h] at hrlt
      rw [hquot] at hrlt
      exact lt_of_lt_of_le hrlt (Nat.mod_le n _)

theorem bigModExpAux_lt : ∀ f res b e n r, 0 < n → n < B1024 → res < n →
    bigModExpAux f res b e n = some r → r < n
  | 0, res, b, e, n, r, _, _, hres, h => by
    simp only [bigModExpAux] at h
    split at h
    · cases h
      exact hres
    · cases h
  | f + 1, res, b, e, n, r, hn, hnB, hres, h => by
    simp only [bigModExpAux] at h
    by_cases he : e = 0
    · rw [if_pos he] at h
      cases h
      exact hres
    · rw [if_neg he] at h
      by_cases h2e : e % 2 = 1
      · rw [if_pos h2e] at h
        cases h1 : bigintModMul res b n with
        | none =>
          rw [h1] at h
          simp at h
        | some res' =>
          rw [h1] at h
          simp only [Option.bind_eq_bind, Option.some_bind] at h
          cases h2 : bigintModMul b b n with
          | none =>
            rw [h2] at h
            simp at h
          | some b' =>
            rw [h2] at h
            simp only [Option.bind_eq_bind, Option.some_bind] at h
            exact bigModExpAux_lt f res' b' (e / 2) n r hn hnB
              (bigintModMul_lt _ _ _ _ hn hnB h1) h
      · rw [if_neg h2e] at h
        simp only [Option.bind_eq_bind, Option.some_bind] at h
        cases h2 : bigintModMul b b n with
        | none =>
          rw [h2] at h
          simp at h
        | some b' =>
          rw [h2] at h
          simp only [Option.bind_eq_bind, Option.some_bind] at h
          exact bigModExpAux_lt f res b' (e / 2) n r hn hnB hres h

/-- Bound for the 1024-bit modular exponentiation. -/
theorem bigintModExp_lt (a e n r : Nat) (hn : 2 ≤ n) (hnB : n < B1024)
    (h : bigintModExp a e n = some r) : r < n :=
  bigModExpAux_lt 1024 1 a e n r (by omega) hnB (by omega) h

/-- Frame behavior of the 1024-bit witness test on the caller's cell `*a`:
untouched when `a < n` or when the repeated subtraction reduces `a` to zero
(early pass), and overwritten with the reduced residue `a % n` otherwise. -/
theorem witness1024_frame (n a : Nat) (hn : 0 < n) :
    ∀ r, millerRabinWitness1024 n a = some r →
      r.2 = if a < n ∨ a % n = 0 then a else a % n := by
  intro r h
  unfold millerRabinWitness1024 at h
  by_cases hna : n ≤ a
  · rw [if_pos hna, subReduce_mod a a n hn (le_refl a)] at h
    by_cases h0 : a % n = 0
    · rw [if_pos h0] at h
      cases h
      rw [if_pos (Or.inr h0)]
    · rw [if_neg h0] at h
      cases htest : mrTest1024 n (a % n) with
      | none => rw [htest] at h; simp at h
      | some res =>
        rw [htest] at h
        simp only [Option.map_some', Option.some.injEq] at h
        subst h
        rw [if_neg (by omega)]
  · rw [if_neg hna] at h
    cases htest : mrTest1024 n a with
    | none => rw [htest] at h; simp at h
    | some res =>
      rw [htest] at h
      simp only [Option.map_some', Option.some.injEq] at h
      subst h
      rw [if_pos (Or.inl (by omega))]

/-! ## Claim theorems -/

/-- C1 (amended: modulus restricted to `n ≤ 2 ^ 63`, where the 64-bit
shift-and-add modular arithmetic is exact; for larger 64-bit moduli the
internal additions wrap and the test can reject primes).  For every odd
modulus `3 ≤ n ≤ 2 ^ 63` and every witness `2 ≤ a ≤ n - 2`, if `n` is prime
the witness test returns pass; equivalently, whenever it returns fail, `n`
is composite. -/
theorem C1_witness_sound (n a : Nat) (h3 : 3 ≤ n) (h63 : n ≤ 2 ^ 63)
    (hodd : n % 2 = 1) (ha2 : 2 ≤ a) (han : a ≤ n - 2) :
    (n.Prime → millerRabinWitness n a = 1) ∧
    (millerRabinWitness n a = 0 → ¬ n.Prime) := by
  constructor
  · intro hp
    exact witness_passes_of_prime n a hp h3 h63 hodd ha2 han
  · intro h0 hp
    have := witness_passes_of_prime n a hp h3 h63 hodd ha2 han
    omega

/-- Witness for C1 at the concrete prime 13 with base 5. -/
theorem C1_witness_sound_witness :
    (3 ≤ 13 ∧ 13 ≤ 2 ^ 63 ∧ 13 % 2 = 1 ∧ 2 ≤ 5 ∧ 5 ≤ 13 - 2) ∧
    (Nat.Prime 13 → millerRabinWitness 13 5 = 1) ∧
    (millerRabinWitness 13 5 = 0 → ¬ Nat.Prime 13) :=
  ⟨⟨by norm_num, by norm_num, by norm_num, by norm_num, by norm_num⟩,
    (C1_witness_sound 13 5 (by norm_num) (by norm_num) (by norm_num)
      (by norm_num) (by norm_num)).1,
    (C1_witness_sound 13 5 (by norm_num) (by norm_num) (by norm_num)
      (by norm_num) (by norm_num)).2⟩

/-- Counterexample to C1 as stated: the odd prime `2 ^ 64 - 2 ^ 32 + 1`
(which exceeds `2 ^ 63`) is rejected by the witness test at the legal base 2,
because the 64-bit additions inside `mulmod` overflow. -/
theorem C1_counterexample :
    Nat.Prime 18446744069414584321 ∧
    18446744069414584321 % 2 = 1 ∧
    (2:Nat) ≤ 2 ∧ (2:Nat) ≤ 18446744069414584321 - 2 ∧
    millerRabinWitness 18446744069414584321 2 = 0 :=
  ⟨goldilocks_prime, by norm_num, by norm_num, by norm_num, by decide⟩

/-- C2 (amended: modulus restricted to `n ≤ 2 ^ 63`): the shift-and-add
modular multiplication agrees with the exact product residue for every
modulus up to `2 ^ 63` and all 64-bit operands. -/
theorem C2_mulmod_correct (a b n : Nat) (hn : 0 < n) (h63 : n ≤ 2 ^ 63)
    (hb : b < 2 ^ 64) : mulmod a b n = a * b % n :=
  mulmod_correct a b n hn h63 hb

/-- Witness for C2 at `a = 7`, `b = 9`, `n = 11`. -/
theorem C2_mulmod_correct_witness :
    (0 < 11 ∧ 11 ≤ 2 ^ 63 ∧ 9 < 2 ^ 64) ∧ mulmod 7 9 11 = 7 * 9 % 11 :=
  ⟨⟨by norm_num, by norm_num, by norm_num⟩,
    C2_mulmod_correct 7 9 11 (by norm_num) (by norm_num) (by norm_num)⟩

/-- Counterexample to C2 as stated: with the representable modulus
`2 ^ 63 + 1` and operands `2 ^ 63`, the wrapped shift `a <<= 1` loses the
product and the code returns 0 instead of the true residue 1. -/
theorem C2_counterexample :
    mulmod (2 ^ 63) (2 ^ 63) (2 ^ 63 + 1) = 0 ∧
    2 ^ 63 * 2 ^ 63 % (2 ^ 63 + 1) = 1 :=
  ⟨by decide, by decide⟩

/-- C3 (amended: modulus restricted to `2 ≤ n ≤ 2 ^ 63`): modular
exponentiation agrees with the exact power residue, including `e = 0`
(result `1 = a ^ 0 mod n` for `n ≥ 2`) and both parity branches. -/
theorem C3_powmod_correct (a e n : Nat) (hn : 2 ≤ n) (h63 : n ≤ 2 ^ 63)
    (he : e < 2 ^ 64) : powmod a e n = a ^ e % n :=
  powmod_correct a e n hn h63 he

/-- Witness for C3 at the edge case `e = 0` (result 1). -/
theorem C3_powmod_correct_witness :
    (2 ≤ 7 ∧ 7 ≤ 2 ^ 63 ∧ 0 < 2 ^ 64) ∧ powmod 3 0 7 = 3 ^ 0 % 7 :=
  ⟨⟨by norm_num, by norm_num, by norm_num⟩,
    C3_powmod_correct 3 0 7 (by norm_num) (by norm_num) (by norm_num)⟩

/-- Counterexample to C3 as stated: at the representable modulus `n = 1`
with `e = 0` the code returns 1 but `a ^ 0 mod 1 = 0`; and at the
representable modulus `2 ^ 63 + 1` the wrapped arithmetic returns 0 where
the true residue is 1. -/
theorem C3_counterexample :
    (powmod 5 0 1 = 1 ∧ (5:Nat) ^ 0 % 1 = 0) ∧
    (powmod (2 ^ 63) 2 (2 ^ 63 + 1) = 0 ∧
      ((2:Nat) ^ 63) ^ 2 % (2 ^ 63 + 1) = 1) :=
  ⟨⟨by decide, by decide⟩, ⟨by decide, by decide⟩⟩

/-- C4: past the sieve, the driver accepts exactly when all `k` drawn
witnesses pass, and a single failing witness at round `j` makes it return
composite having consumed exactly `j + 1` draws (4 PRNG pulls each), leaving
the remaining rounds unexecuted. -/
theorem C4_driver_short_circuit (f : Nat → Nat) (n k s j : Nat) (h2 : 2 ≤ n)
    (hsieve : sieveCheck smallPrimes n = none) :
    (isProbablePrime f n k s = 1 ↔
      ∀ i < k, millerRabinWitness n (roundWitness f n s i) = 1) ∧
    (j < k → (∀ i < j, millerRabinWitness n (roundWitness f n s i) = 1) →
      millerRabinWitness n (roundWitness f n s j) = 0 →
      isProbablePrimeM f n k s = (0, s + 4 * (j + 1))) := by
  have hdrv : isProbablePrimeM f n k s = mrRoundsM f n k s := by
    simp only [isProbablePrimeM, if_neg (by omega : ¬ n < 2), hsieve]
  constructor
  · show (isProbablePrimeM f n k s).1 = 1 ↔ _
    rw [hdrv]
    exact mrRoundsM_all_pass f n k s
  · intro hjk hall hfail
    rw [hdrv]
    exact mrRoundsM_short_circuit f n j k s hjk hall hfail

/-- Witness for C4 at `n = 211` (sieve-neutral), one round, zero PRNG
table. -/
theorem C4_driver_short_circuit_witness :
    (2 ≤ 211 ∧ sieveCheck smallPrimes 211 = none) ∧
    ((isProbablePrime (fun _ => 0) 211 1 0 = 1 ↔
      ∀ i < 1, millerRabinWitness 211 (roundWitness (fun _ => 0) 211 0 i) = 1) ∧
    (0 < 1 →
      (∀ i < 0, millerRabinWitness 211 (roundWitness (fun _ => 0) 211 0 i) = 1) →
      millerRabinWitness 211 (roundWitness (fun _ => 0) 211 0 0) = 0 →
      isProbablePrimeM (fun _ => 0) 211 1 0 = (0, 0 + 4 * (0 + 1)))) :=
  ⟨⟨by norm_num, by decide⟩,
    C4_driver_short_circuit (fun _ => 0) 211 1 0 0 (by norm_num) (by decide)⟩

/-- C5: every prime below 200 in the table is reported by the sieve as an
exact match, and the primality driver returns prime on it for every round
count and PRNG state. -/
theorem C5_sieve_exact_match (p : Nat) (hp : p ∈ smallPrimes) :
    sieveCheck smallPrimes p = some true ∧
    ∀ f k s, isProbablePrime f p k s = 1 := by
  have hall : ∀ q ∈ smallPrimes, sieveCheck smallPrimes q = some true := by
    decide
  have h2 : ∀ q ∈ smallPrimes, 2 ≤ q := by decide
  have hx := hall p hp
  refine ⟨hx, fun f k s => ?_⟩
  have hlt : ¬ p < 2 := by
    have := h2 p hp
    omega
  show (isProbablePrimeM f p k s).1 = 1
  simp only [isProbablePrimeM, if_neg hlt, hx]

/-- Witness for C5 at the table entry 199. -/
theorem C5_sieve_exact_match_witness :
    (199 ∈ smallPrimes) ∧
    (sieveCheck smallPrimes 199 = some true ∧
      ∀ f k s, isProbablePrime f 199 k s = 1) :=
  ⟨by decide, C5_sieve_exact_match 199 (by decide)⟩

/-- C6 (amended: bit length restricted to `2 ≤ N ≤ 63`, the lengths on which
the C program is defined — at `N = 64` the code already evaluates the
undefined `1ULL << 64` and a masked-shift realization can clear the top bit):
every generated candidate is odd, has its top bit at position `N - 1` set,
and fits in `N` bits, for every state of the random source. -/
theorem C6_candidate_invariant (bits raw : Nat) (h2 : 2 ≤ bits)
    (h63 : bits ≤ 63) :
    genRandomOdd bits raw % 2 = 1 ∧
    2 ^ (bits - 1) ≤ genRandomOdd bits raw ∧
    genRandomOdd bits raw < 2 ^ bits :=
  genRandomOdd_spec bits raw h2 h63

/-- Witness for C6 at the program's own bit length 30. -/
theorem C6_candidate_invariant_witness :
    (2 ≤ 30 ∧ 30 ≤ 63) ∧
    (genRandomOdd 30 9515 % 2 = 1 ∧
      2 ^ (30 - 1) ≤ genRandomOdd 30 9515 ∧
      genRandomOdd 30 9515 < 2 ^ 30) :=
  ⟨⟨by norm_num, by norm_num⟩,
    C6_candidate_invariant 30 9515 (by norm_num) (by norm_num)⟩

/-- Counterexample to C6 as stated for every `N ≥ 2`: at `N = 65` no 64-bit
value can have bit `N - 1 = 64` set at all, whatever resolution the undefined
shift takes; in the wrapping model the range collapses and the generator
returns 1, which is far below `2 ^ (N - 1)`. -/
theorem C6_counterexample :
    genRandomOdd 65 0 = 1 ∧ (1:Nat) < 2 ^ (65 - 1) :=
  ⟨by decide, by norm_num⟩

/-- C7: for a witness `a ≥ n` the test depends only on `a mod n` (the
word-native code reduces inside `powmod`, the 1024-bit code reduces by
repeated subtraction first), and a base that reduces to 0 is a pass in both
variants. -/
theorem C7_degenerate_base (n a : Nat) (hna : n ≤ a) :
    millerRabinWitness n a = millerRabinWitness n (a % n) ∧
    (a % n = 0 → millerRabinWitness n a = 1) ∧
    (0 < n → a % n = 0 → millerRabinWitness1024 n a = some (1, a)) := by
  have hmm : a % n % n = a % n := Nat.mod_mod_of_dvd a (dvd_refl n)
  refine ⟨?_, ?_, ?_⟩
  · simp only [millerRabinWitness, powmod, hmm]
  · intro h0
    simp [millerRabinWitness, h0]
  · intro hn h0
    have ht : subReduce a a n = 0 := by
      rw [subReduce_mod a a n hn (le_refl a), h0]
    simp only [millerRabinWitness1024, if_pos hna, ht]
    simp

/-- Witness for C7 at `n = 5`, `a = 10` (a degenerate base). -/
theorem C7_degenerate_base_witness :
    (5 ≤ 10) ∧
    (millerRabinWitness 5 10 = millerRabinWitness 5 (10 % 5) ∧
      (10 % 5 = 0 → millerRabinWitness 5 10 = 1) ∧
      (0 < 5 → 10 % 5 = 0 → millerRabinWitness1024 5 10 = some (1, 10))) :=
  ⟨by norm_num, C7_degenerate_base 5 10 (by norm_num)⟩

/-- C8 at the failing input `n = 5`, `a = 7`: the 1024-bit witness test
returns pass but has overwritten the caller's cell for `a` with the reduced
value 2 (the write through the const pointer at line 245), contradicting the
by-value contract the design states. -/
theorem C8_aliasing_evaluation :
    millerRabinWitness1024 5 7 = some (1, 2) ∧ (2:Nat) ≠ 7 :=
  ⟨by decide, by norm_num⟩

/-- C9 (amended: two executions agree when, in addition to the seed and the
parameters, the sequence of wall-clock readings is the same; the clock is a
genuine input of the search loop through the reseed branch
`srand(time(NULL) + attempts)`): the search result — accepted prime and
attempt count — is a function of seed, parameters and clock readings. -/
theorem C9_deterministic (f t1 t2 : Nat → Nat) (seed fuel : Nat)
    (h : ∀ i, t1 i = t2 i) :
    generate30 f t1 seed fuel = generate30 f t2 seed fuel := by
  have ht : t1 = t2 := funext h
  rw [ht]

/-- Witness for C9 on the concrete scenario tables. -/
theorem C9_deterministic_witness :
    (∀ i : Nat, timesSame i = timesSame i) ∧
    generate30 fTable timesSame 0 2 = generate30 fTable timesSame 0 2 :=
  ⟨fun _ => rfl, C9_deterministic fTable timesSame timesSame 0 2 fun _ => rfl⟩

/-- Counterexample to C9 as stated: with the same PRNG seed 0 and the same
parameters, a run whose clock never advances accepts the prime 536870923,
while a run whose clock jumps past the 60-second reseed threshold after the
first failed attempt reseeds the PRNG and accepts the different prime
536870951 (both after 2 attempts). -/
theorem C9_counterexample :
    generate30 fTable timesSame 0 2 = some (536870923, 2) ∧
    generate30 fTable timesLate 0 2 = some (536870951, 2) ∧
    some ((536870923:Nat), (2:Nat)) ≠ some ((536870951:Nat), (2:Nat)) :=
  ⟨by decide, by decide, by decide⟩

/-- C10: under the upstream precondition (odd modulus `n ≥ 3`) every result
of the modular layer is a canonical residue `< n`: unconditionally for the
word-native `mulmod`/`powmod` (even for moduli above `2 ^ 63`, where the
value may be inexact but is still reduced), and for the 1024-bit
`bigint_mod_mul`/`bigint_mod_exp` whenever their alignment loop
terminates. -/
theorem C10_canonical_residues (a b e n : Nat) (h3 : 3 ≤ n)
    (hodd : n % 2 = 1) :
    mulmod a b n < n ∧ powmod a e n < n ∧
    (n < B1024 → ∀ r, bigintModMul a b n = some r → r < n) ∧
    (n < B1024 → ∀ r, bigintModExp a e n = some r → r < n) := by
  have h0 : 0 < n := by omega
  have h1 := hodd
  refine ⟨mulmod_lt a b n h0, powmod_lt a e n (by omega), ?_, ?_⟩
  · intro hB r h
    exact bigintModMul_lt a b n r h0 hB h
  · intro hB r h
    exact bigintModExp_lt a e n r (by omega) hB h

/-- Witness for C10 at `a = 3`, `b = 4`, `e = 4`, `n = 5`. -/
theorem C10_canonical_residues_witness :
    (3 ≤ 5 ∧ 5 % 2 = 1) ∧
    (mulmod 3 4 5 < 5 ∧ powmod 3 4 5 < 5 ∧
      (5 < B1024 → ∀ r, bigintModMul 3 4 5 = some r → r < 5) ∧
      (5 < B1024 → ∀ r, bigintModExp 3 4 5 = some r → r < 5)) :=
  ⟨⟨by norm_num, by norm_num⟩,
    C10_canonical_residues 3 4 4 5 (by norm_num) (by norm_num)⟩
